import Mathlib

/-!
Shallow embedding of the holiday-update pipeline
(`update_holidays.py`, `holidays_gcal_fetch.py`, `test_update_holidays.py`).

Pure data transformations (merge, dedupe, year filter, event normalization,
snapshot comparison) are embedded as Lean functions; the per-key file-system
interaction of `update_country_holidays` and `main` is embedded as explicit
state passing over an abstract file content type, with the network fetch
supplied as an `Except` value.
-/

namespace Holiday

/-- A holiday entry: the `{date, name}` objects stored in the per-country
JSON files and produced by the fetch step. -/
structure HolidayEntry where
  date : String
  name : String
deriving DecidableEq, Repr

/-- The `(date, name)` key used by `merge_holidays` for duplicate detection
(`existing_keys = {(h["date"], h["name"]) for h in existing}`). -/
def keyPair (h : HolidayEntry) : String × String := (h.date, h.name)

/-- The append loop of `merge_holidays`: for each incoming holiday, append it
to `merged` only when its `(date, name)` key is not already in `keys`, adding
the key to the set when appending (`existing_keys.add(key)`). -/
def addNewHolidays (merged : List HolidayEntry) (keys : List (String × String)) :
    List HolidayEntry → List HolidayEntry
  | [] => merged
  | h :: rest =>
      if keyPair h ∈ keys then
        addNewHolidays merged keys rest
      else
        addNewHolidays (merged ++ [h]) (keyPair h :: keys) rest

/-- The sort comparator of `merge_holidays`: `merged.sort(key=lambda h: h["date"])`,
ascending lexicographic order on the date string. -/
def dateLe (a b : HolidayEntry) : Bool := decide (a.date ≤ b.date)

/-- `merge_holidays(existing, new_holidays)`: copy `existing`, append incoming
holidays whose `(date, name)` key is new, then stable-sort by date. -/
def merge_holidays (existing new_holidays : List HolidayEntry) : List HolidayEntry :=
  (addNewHolidays existing (existing.map keyPair) new_holidays).mergeSort dateLe

lemma dateLe_trans : ∀ a b c : HolidayEntry,
    dateLe a b = true → dateLe b c = true → dateLe a c = true := by
  intro a b c hab hbc
  simp only [dateLe, decide_eq_true_eq] at *
  exact le_trans hab hbc

lemma dateLe_total : ∀ a b : HolidayEntry, (dateLe a b || dateLe b a) = true := by
  intro a b
  simp only [dateLe, Bool.or_eq_true, decide_eq_true_eq]
  exact le_total a.date b.date

/-- Elements of the accumulator survive the append loop. -/
lemma mem_addNewHolidays {x : HolidayEntry} :
    ∀ (rest : List HolidayEntry) (merged : List HolidayEntry)
      (keys : List (String × String)), x ∈ merged → x ∈ addNewHolidays merged keys rest := by
  intro rest
  induction rest with
  | nil => intro merged keys hx; simpa [addNewHolidays] using hx
  | cons h t ih =>
      intro merged keys hx
      by_cases hk : keyPair h ∈ keys
      · simpa [addNewHolidays, hk] using ih merged keys hx
      · simp only [addNewHolidays, hk, if_neg]
        exact ih (merged ++ [h]) (keyPair h :: keys) (List.mem_append_left _ hx)

/-- If every key of `rest` is already in `keys`, the append loop is a no-op. -/
lemma addNewHolidays_noop :
    ∀ (rest : List HolidayEntry) (merged : List HolidayEntry)
      (keys : List (String × String)),
      (∀ h ∈ rest, keyPair h ∈ keys) → addNewHolidays merged keys rest = merged := by
  intro rest
  induction rest with
  | nil => intro merged keys _; rfl
  | cons h t ih =>
      intro merged keys hall
      have hk : keyPair h ∈ keys := hall h (List.mem_cons_self h t)
      simp only [addNewHolidays, hk, if_pos]
      exact ih merged keys fun h' h't => hall h' (List.mem_cons_of_mem _ h't)

/-- After the append loop, every incoming holiday's key is present in the
result (either it was already among `keys`, all of which are covered by the
accumulator, or it got appended). -/
lemma key_mem_addNewHolidays :
    ∀ (rest : List HolidayEntry) (merged : List HolidayEntry)
      (keys : List (String × String)),
      (∀ k ∈ keys, k ∈ merged.map keyPair) →
      ∀ h ∈ rest, keyPair h ∈ (addNewHolidays merged keys rest).map keyPair := by
  intro rest
  induction rest with
  | nil => intro merged keys _ h hh; cases hh
  | cons a t ih =>
      intro merged keys hinv h hh
      by_cases hk : keyPair a ∈ keys
      · simp only [addNewHolidays, hk, if_pos]
        rcases List.mem_cons.mp hh with rfl | ht
        · have : keyPair h ∈ merged.map keyPair := hinv _ hk
          rcases List.mem_map.mp this with ⟨x, hx, hxk⟩
          exact List.mem_map.mpr ⟨x, mem_addNewHolidays t merged keys hx, hxk⟩
        · exact ih merged keys hinv h ht
      · simp only [addNewHolidays, hk, if_neg]
        rcases List.mem_cons.mp hh with rfl | ht
        · have hx : h ∈ merged ++ [h] := List.mem_append_right _ (List.mem_singleton.mpr rfl)
          exact List.mem_map.mpr
            ⟨h, mem_addNewHolidays t (merged ++ [h]) (keyPair h :: keys) hx, rfl⟩
        · refine ih (merged ++ [a]) (keyPair a :: keys) ?_ h ht
          intro k hk'
          rcases List.mem_cons.mp hk' with rfl | hk''
          · exact List.mem_map.mpr ⟨a, List.mem_append_right _ (List.mem_singleton.mpr rfl), rfl⟩
          · rcases List.mem_map.mp (hinv k hk'') with ⟨x, hx, hxk⟩
            exact List.mem_map.mpr ⟨x, List.mem_append_left _ hx, hxk⟩

/-- The append loop preserves distinctness of `(date, name)` keys in the
accumulator, as long as `keys` covers all accumulator keys. -/
lemma addNewHolidays_nodup :
    ∀ (rest : List HolidayEntry) (merged : List HolidayEntry)
      (keys : List (String × String)),
      (merged.map keyPair).Nodup →
      (∀ k ∈ merged.map keyPair, k ∈ keys) →
      ((addNewHolidays merged keys rest).map keyPair).Nodup := by
  intro rest
  induction rest with
  | nil => intro merged keys hnd _; simpa [addNewHolidays] using hnd
  | cons a t ih =>
      intro merged keys hnd hcov
      by_cases hk : keyPair a ∈ keys
      · simp only [addNewHolidays, hk, if_pos]
        exact ih merged keys hnd hcov
      · simp only [addNewHolidays, hk, if_neg]
        refine ih (merged ++ [a]) (keyPair a :: keys) ?_ ?_
        · rw [List.map_append]
          refine List.Nodup.append hnd (List.nodup_singleton _) ?_
          intro x hx hy
          rcases List.mem_singleton.mp hy with rfl
          exact hk (hcov _ hx)
        · intro k hk'
          rw [List.map_append] at hk'
          rcases List.mem_append.mp hk' with hk'' | hk''
          · exact List.mem_cons_of_mem _ (hcov k hk'')
          · exact List.mem_cons.mpr (Or.inl (List.mem_singleton.mp hk''))

/-- The output of `merge_holidays` is pairwise sorted by `dateLe`. -/
lemma merge_holidays_sorted (existing new_holidays : List HolidayEntry) :
    (merge_holidays existing new_holidays).Pairwise (fun a b => dateLe a b = true) :=
  List.sorted_mergeSort dateLe_trans dateLe_total _

/-- C1 — every element of `existing` is a member of the merge output. -/
theorem merge_nondestructive (existing incoming : List HolidayEntry)
    (e : HolidayEntry) (he : e ∈ existing) :
    e ∈ merge_holidays existing incoming := by
  have h1 : e ∈ addNewHolidays existing (existing.map keyPair) incoming :=
    mem_addNewHolidays incoming existing (existing.map keyPair) he
  exact ((List.mergeSort_perm _ dateLe).mem_iff).mpr h1

/-- Witness for C1 at a concrete input. -/
theorem merge_nondestructive_witness :
    (⟨"2025-01-01T00:00:00.000Z", "New Year"⟩ : HolidayEntry) ∈
      merge_holidays [⟨"2025-01-01T00:00:00.000Z", "New Year"⟩]
        [⟨"2025-01-01T00:00:00.000Z", "New Year"⟩, ⟨"2025-02-11T00:00:00.000Z", "Foundation Day"⟩] :=
  merge_nondestructive _ _ _ (by decide)

/-- C3 — merging the same incoming list a second time is a no-op. -/
theorem merge_idempotent (existing incoming : List HolidayEntry) :
    merge_holidays (merge_holidays existing incoming) incoming =
      merge_holidays existing incoming := by
  set M := merge_holidays existing incoming with hM
  have hkeys : ∀ h ∈ incoming, keyPair h ∈ M.map keyPair := by
    intro h hh
    have h1 : keyPair h ∈
        (addNewHolidays existing (existing.map keyPair) incoming).map keyPair :=
      key_mem_addNewHolidays incoming existing (existing.map keyPair)
        (fun k hk => hk) h hh
    have hperm := (List.mergeSort_perm
      (addNewHolidays existing (existing.map keyPair) incoming) dateLe).map keyPair
    exact hperm.mem_iff.mpr h1
  have hnoop : addNewHolidays M (M.map keyPair) incoming = M :=
    addNewHolidays_noop incoming M (M.map keyPair) hkeys
  have hsorted : M.Pairwise (fun a b => dateLe a b = true) := by
    rw [hM]; exact merge_holidays_sorted existing incoming
  calc merge_holidays M incoming
      = (addNewHolidays M (M.map keyPair) incoming).mergeSort dateLe := rfl
    _ = M.mergeSort dateLe := by rw [hnoop]
    _ = M := List.mergeSort_of_sorted hsorted

/-- C9 — merge preserves distinctness of `(date, name)` pairs. -/
theorem merge_preserves_key_nodup (existing incoming : List HolidayEntry)
    (hnd : (existing.map keyPair).Nodup) :
    ((merge_holidays existing incoming).map keyPair).Nodup := by
  have h1 : ((addNewHolidays existing (existing.map keyPair) incoming).map keyPair).Nodup :=
    addNewHolidays_nodup incoming existing (existing.map keyPair) hnd (fun k hk => hk)
  have hperm := (List.mergeSort_perm
    (addNewHolidays existing (existing.map keyPair) incoming) dateLe).map keyPair
  exact (hperm.nodup_iff).mpr h1

/-- Witness for C9 at a concrete input. -/
theorem merge_preserves_key_nodup_witness :
    (((merge_holidays
        [⟨"2025-01-01T00:00:00.000Z", "New Year"⟩]
        [⟨"2025-01-01T00:00:00.000Z", "New Year"⟩,
         ⟨"2025-02-11T00:00:00.000Z", "Foundation Day"⟩]).map keyPair)).Nodup :=
  merge_preserves_key_nodup _ _ (by decide)

/-- One assignment `unique_holidays[holiday["date"]] = holiday` on a Python
dict modelled as an association list in key-insertion order: when the date is
already a key, the stored entry is replaced in place; otherwise the pair is
appended at the end. -/
def dictInsert (m : List HolidayEntry) (h : HolidayEntry) : List HolidayEntry :=
  if h.date ∈ m.map HolidayEntry.date then
    m.map (fun e => if e.date = h.date then h else e)
  else
    m ++ [h]

/-- The dedup step of `fetch_holidays_from_gcal`: fold the filtered holidays
into a date-keyed dict, later same-date entries overwriting earlier ones, and
return the dict's values. -/
def dedupe (l : List HolidayEntry) : List HolidayEntry := l.foldl dictInsert []

/-- Stated from the claim's words, for comparison with `dedupe`: the entry
occurring last in input order among the entries with date `d`, if any. -/
def specLastWithDate : List HolidayEntry → String → Option HolidayEntry
  | [], _ => none
  | a :: t, d =>
      match specLastWithDate t d with
      | some h => some h
      | none => if a.date = d then some a else none

lemma mem_dictInsert (m : List HolidayEntry) (h x : HolidayEntry) :
    x ∈ dictInsert m h ↔ (x = h ∨ (x ∈ m ∧ x.date ≠ h.date)) := by
  by_cases hk : h.date ∈ m.map HolidayEntry.date
  · simp only [dictInsert, hk, if_pos]
    constructor
    · intro hx
      rcases List.mem_map.mp hx with ⟨e, he, hex⟩
      by_cases hde : e.date = h.date
      · left; rw [← hex]; simp [hde]
      · right; rw [← hex]; simp only [hde, if_neg]; exact ⟨he, hde⟩
    · rintro (rfl | ⟨hxm, hxd⟩)
      · rcases List.mem_map.mp hk with ⟨e, he, hed⟩
        exact List.mem_map.mpr ⟨e, he, by simp [hed]⟩
      · exact List.mem_map.mpr ⟨x, hxm, by simp [hxd]⟩
  · simp only [dictInsert, hk, if_neg]
    constructor
    · intro hx
      rcases List.mem_append.mp hx with hxm | hxh
      · right
        refine ⟨hxm, ?_⟩
        intro hd
        exact hk (List.mem_map.mpr ⟨x, hxm, hd⟩)
      · left; exact List.mem_singleton.mp hxh
    · rintro (rfl | ⟨hxm, _⟩)
      · exact List.mem_append_right _ (List.mem_singleton.mpr rfl)
      · exact List.mem_append_left _ hxm

lemma specLastWithDate_cons (a : HolidayEntry) (t : List HolidayEntry) (d : String) :
    specLastWithDate (a :: t) d =
      match specLastWithDate t d with
      | some h => some h
      | none => if a.date = d then some a else none := rfl

lemma mem_foldl_dictInsert :
    ∀ (rest m : List HolidayEntry) (x : HolidayEntry),
      x ∈ rest.foldl dictInsert m ↔
        (specLastWithDate rest x.date = some x ∨
          (specLastWithDate rest x.date = none ∧ x ∈ m)) := by
  intro rest
  induction rest with
  | nil => intro m x; simp [specLastWithDate, List.foldl]
  | cons a t ih =>
      intro m x
      rw [List.foldl_cons, ih (dictInsert m a) x]
      rcases hlast : specLastWithDate t x.date with _ | h'
      · have hcons : specLastWithDate (a :: t) x.date =
            if a.date = x.date then some a else none := by
          rw [specLastWithDate_cons, hlast]
        rw [hcons]
        by_cases had : a.date = x.date
        · rw [if_pos had]
          constructor
          · rintro (h0 | ⟨-, hx⟩)
            · cases h0
            · rcases (mem_dictInsert m a x).mp hx with rfl | ⟨_, hxd⟩
              · exact Or.inl rfl
              · exact absurd had.symm hxd
          · rintro (ha | ⟨h0, -⟩)
            · injection ha with ha
              exact Or.inr ⟨rfl, (mem_dictInsert m a x).mpr (Or.inl ha.symm)⟩
            · cases h0
        · rw [if_neg had]
          constructor
          · rintro (h0 | ⟨-, hx⟩)
            · cases h0
            · rcases (mem_dictInsert m a x).mp hx with rfl | ⟨hxm, _⟩
              · exact absurd rfl had
              · exact Or.inr ⟨rfl, hxm⟩
          · rintro (h0 | ⟨-, hxm⟩)
            · cases h0
            · exact Or.inr ⟨rfl,
                (mem_dictInsert m a x).mpr (Or.inr ⟨hxm, fun hd => had hd.symm⟩)⟩
      · have hcons : specLastWithDate (a :: t) x.date = some h' := by
          rw [specLastWithDate_cons, hlast]
        rw [hcons]
        simp

/-- C5 — `dedupe` keeps, for each date, exactly the last entry of the input
carrying that date. -/
theorem dedupe_keeps_last (l : List HolidayEntry) (x : HolidayEntry) :
    x ∈ dedupe l ↔ specLastWithDate l x.date = some x := by
  rw [dedupe, mem_foldl_dictInsert l [] x]
  simp

lemma specLastWithDate_mem :
    ∀ (l : List HolidayEntry) (d : String) (x : HolidayEntry),
      specLastWithDate l d = some x → x ∈ l ∧ x.date = d := by
  intro l
  induction l with
  | nil => intro d x hx; cases hx
  | cons a t ih =>
      intro d x hx
      rcases hlast : specLastWithDate t d with _ | h'
      · rw [specLastWithDate, hlast] at hx
        by_cases had : a.date = d
        · rw [if_pos had] at hx
          cases hx
          exact ⟨List.mem_cons_self _ _, had⟩
        · rw [if_neg had] at hx
          cases hx
      · rw [specLastWithDate, hlast] at hx
        cases hx
        rcases ih d x hlast with ⟨hm, hd⟩
        exact ⟨List.mem_cons_of_mem _ hm, hd⟩

/-- Digit-string value accumulation, as Python `int` computes it on an
all-digit string. -/
def digitsVal (acc : Nat) : List Char → Nat
  | [] => acc
  | c :: cs => digitsVal (acc * 10 + (c.toNat - Char.toNat (Char.ofNat 48))) cs

/-- Python `int(s)` restricted to non-empty all-digit strings — the only shape
the pipeline feeds it (the first four characters of a `YYYY-MM-DD...` date);
`none` models `int` raising `ValueError` on any other string, which in the
source propagates as a per-key error. -/
def parseNat? (s : String) : Option Nat :=
  if s.data ≠ [] ∧ s.data.all (·.isDigit) then some (digitsVal 0 s.data) else none

/-- The year filter of `fetch_holidays_from_gcal`:
`[h for h in holidays if h["date"] and int(h["date"][:4]) in year_set]` with
`year_set = set(range(start_year, end_year + 1))`. -/
def yearFilter (startYear endYear : Nat) (holidays : List HolidayEntry) :
    List HolidayEntry :=
  holidays.filter fun h =>
    !h.date.isEmpty &&
      match parseNat? (h.date.take 4) with
      | some y => decide (startYear ≤ y) && decide (y ≤ endYear)
      | none => false

/-- C6 — an entry with a resolved year `Y` is kept by the year filter iff
`startYear ≤ Y ≤ endYear`. -/
theorem year_filter_window (startYear endYear Y : Nat) (l : List HolidayEntry)
    (h : HolidayEntry) (hmem : h ∈ l) (hne : h.date ≠ "")
    (hY : parseNat? (h.date.take 4) = some Y) :
    h ∈ yearFilter startYear endYear l ↔ (startYear ≤ Y ∧ Y ≤ endYear) := by
  have hne' : h.date.isEmpty = false := by
    rcases hb : h.date.isEmpty with _ | _
    · rfl
    · exact absurd ((String.isEmpty_iff h.date).mp hb) hne
  rw [yearFilter, List.mem_filter]
  simp [hmem, hY, hne']

/-- Witness for C6 at a concrete input. -/
theorem year_filter_window_witness :
    (⟨"2025-01-01T00:00:00.000Z", "New Year"⟩ : HolidayEntry) ∈
        yearFilter 2025 2027 [⟨"2025-01-01T00:00:00.000Z", "New Year"⟩] ↔
      (2025 ≤ 2025 ∧ 2025 ≤ 2027) :=
  year_filter_window 2025 2027 2025 _ _ (by decide) (by decide) (by decide)

/-- A raw calendar event item as consumed by the fetch loop: the `start`
object's optional `date` and `dateTime` fields, and the `summary`. -/
structure RawEvent where
  startDate : Option String
  startDateTime : Option String
  summary : String
deriving DecidableEq, Repr

/-- `start.get("date") or start.get("dateTime", "")[:10]`: Python `or` falls
through to the truncated `dateTime` on a missing `date` key or an empty
(falsy) `date` string. -/
def extractDateStr (item : RawEvent) : String :=
  match item.startDate with
  | some d => if d = "" then (item.startDateTime.getD "").take 10 else d
  | none => (item.startDateTime.getD "").take 10

/-- The item loop of `fetch_holidays_from_gcal`: skip items with no usable
start marker, otherwise emit `{date: date_str + "T00:00:00.000Z", name: summary}`. -/
def processItems (items : List RawEvent) : List HolidayEntry :=
  items.filterMap fun item =>
    if extractDateStr item = "" then none
    else some ⟨extractDateStr item ++ "T00:00:00.000Z", item.summary⟩

/-- `fetch_holidays_from_gcal` after page assembly: normalize the raw items,
filter to the requested year range, then dedupe by date. -/
def fetch_holidays_from_gcal (items : List RawEvent) (startYear endYear : Nat) :
    List HolidayEntry :=
  dedupe (yearFilter startYear endYear (processItems items))

/-- C10 — an item whose start carries neither a date nor a dateTime (or only
empty ones) is silently discarded by the fetch, and every entry of the fetch
result has a non-empty date string. -/
theorem fetch_skips_undated_items (startYear endYear : Nat) :
    (∀ item : RawEvent,
        (item.startDate = none ∨ item.startDate = some "") →
        (item.startDateTime = none ∨ item.startDateTime = some "") →
        ∀ l r : List RawEvent,
          fetch_holidays_from_gcal (l ++ item :: r) startYear endYear =
            fetch_holidays_from_gcal (l ++ r) startYear endYear) ∧
    (∀ (items : List RawEvent) (h : HolidayEntry),
        h ∈ fetch_holidays_from_gcal items startYear endYear → h.date ≠ "") := by
  constructor
  · intro item hd hdt l r
    have h10 : ("" : String).take 10 = "" := by decide
    have hext : extractDateStr item = "" := by
      rcases hd with hd | hd <;> rcases hdt with hdt | hdt <;>
        simp [extractDateStr, hd, hdt, h10]
    have hproc : processItems (l ++ item :: r) = processItems (l ++ r) := by
      simp only [processItems, List.filterMap_append, List.filterMap_cons, hext,
        if_pos]
    simp only [fetch_holidays_from_gcal, hproc]
  · intro items h hmem
    have h1 : h ∈ yearFilter startYear endYear (processItems items) :=
      (specLastWithDate_mem _ _ _ ((dedupe_keeps_last _ h).mp hmem)).1
    have h2 : h ∈ processItems items := (List.mem_filter.mp h1).1
    rcases List.mem_filterMap.mp h2 with ⟨item, _, hsome⟩
    by_cases hext : extractDateStr item = ""
    · rw [if_pos hext] at hsome; cases hsome
    · rw [if_neg hext] at hsome
      cases hsome
      intro hcontra
      have hlen := congrArg String.length hcontra
      rw [String.length_append] at hlen
      have h14 : ("T00:00:00.000Z" : String).length = 14 := by decide
      have h0 : ("" : String).length = 0 := by decide
      omega

/-- Witness for C10 at a concrete input. -/
theorem fetch_skips_undated_items_witness :
    (⟨"2025-01-01T00:00:00.000Z", "New Year"⟩ : HolidayEntry).date ≠ "" :=
  (fetch_skips_undated_items 2025 2027).2
    [⟨some "2025-01-01", none, "New Year"⟩, ⟨none, none, "ghost"⟩]
    ⟨"2025-01-01T00:00:00.000Z", "New Year"⟩ (by decide)

/-- One element of a dataset file's top-level JSON list: either a well-formed
holiday entry object or any other JSON value (the code never inspects element
shape on load, only the top-level type). -/
inductive JsonValue where
  | entry (h : HolidayEntry)
  | other
deriving DecidableEq, Repr

/-- Abstract content of one key's dataset file, at the granularity
`load_existing_holidays` distinguishes: missing file, text that fails JSON
parsing, a parsed non-list top-level value, or a parsed top-level list. -/
inductive StoredFile where
  | absent
  | invalidJson
  | nonListJson
  | listJson (items : List JsonValue)
deriving DecidableEq, Repr

/-- `load_existing_holidays`: `[]` for a missing file; parse failures and
non-list content are treated as empty, with a warning printed (the returned
Bool); a parsed top-level list is returned as-is. Totality models the absence
of a fatal failure path for decodable text content. -/
def load_existing_holidays : StoredFile → List JsonValue × Bool
  | .absent => ([], false)
  | .invalidJson => ([], true)
  | .nonListJson => ([], true)
  | .listJson items => (items, false)

/-- Stated from the claim's words: a file with some content exists. -/
def contentPresent : StoredFile → Prop
  | .absent => False
  | _ => True

/-- Stated from the claim's words: the stored content is a well-formed
sequence of holiday entries. -/
def wellFormedEntries : StoredFile → Prop
  | .listJson items => ∀ v ∈ items, ∃ h, v = JsonValue.entry h
  | _ => False

/-- Counterexample to C8 as stated: a stored top-level list whose element is
not a holiday entry is present and not a well-formed entry sequence, yet
`load_existing_holidays` returns it as-is instead of treating it as empty. -/
theorem load_malformed_counterexample :
    contentPresent (StoredFile.listJson [JsonValue.other]) ∧
    ¬ wellFormedEntries (StoredFile.listJson [JsonValue.other]) ∧
    (load_existing_holidays (StoredFile.listJson [JsonValue.other])).1 ≠ [] := by
  refine ⟨trivial, ?_, by decide⟩
  intro hwf
  rcases hwf JsonValue.other (List.mem_singleton.mpr rfl) with ⟨h, hh⟩
  cases hh

/-- C8 amended — load returns empty without warning on a missing file, empty
with a recoverable warning when the text is unparseable or parses to a
non-list, and returns a parsed top-level list as-is regardless of element
shape; it has no fatal outcome for any such content. -/
theorem load_total_behavior (c : StoredFile) :
    (c = .absent → load_existing_holidays c = ([], false)) ∧
    ((c = .invalidJson ∨ c = .nonListJson) → load_existing_holidays c = ([], true)) ∧
    (∀ items, c = .listJson items → load_existing_holidays c = (items, false)) := by
  rcases c <;> simp [load_existing_holidays]

/-- Witness for C8's amended theorem at concrete inputs. -/
theorem load_total_behavior_witness :
    load_existing_holidays .invalidJson = ([], true) :=
  (load_total_behavior .invalidJson).2.1 (Or.inl rfl)

/-- `save_holidays_to_json`: the file afterwards holds exactly the given
list, serialized. -/
def save_holidays_to_json (holidays : List HolidayEntry) : StoredFile :=
  .listJson (holidays.map JsonValue.entry)

/-- Reading the loaded items back as holiday entries, as `merge_holidays`
does via `h["date"]`/`h["name"]`: `none` models the `KeyError`/`TypeError`
raised on the first non-entry item, which the caller catches as a per-key
error. -/
def entriesOf? : List JsonValue → Option (List HolidayEntry)
  | [] => some []
  | .entry h :: t => (entriesOf? t).map (h :: ·)
  | .other :: _ => none

/-- Outcome of `update_country_holidays`: a returned Bool, or the raised
`FileExistsError`. -/
inductive UpdateResult where
  | ok (success : Bool)
  | fileExistsError
deriving DecidableEq, Repr

/-- `update_country_holidays` for one key, over abstract file content, with
the fetch outcome supplied as an `Except` (`.error` models
`SourceFetchError`, i.e. the `RuntimeError` raised by `http_get`). Returns
the outcome and the file content after the call. -/
def update_country_holidays (supported recreate : Bool) (file : StoredFile)
    (fetch : Except Unit (List HolidayEntry)) : UpdateResult × StoredFile :=
  if ¬ supported then (.ok false, file)
  else if recreate ∧ file ≠ .absent then (.fileExistsError, file)
  else
    match fetch with
    | .error _ => (.ok false, file)
    | .ok new_holidays =>
        if new_holidays = [] then (.ok true, file)
        else if recreate then (.ok true, save_holidays_to_json new_holidays)
        else
          match entriesOf? (load_existing_holidays file).1 with
          | none => (.ok false, file)
          | some existing =>
              (.ok true, save_holidays_to_json (merge_holidays existing new_holidays))

/-- One country iteration of `main`: under `--recreate --force` an existing
file is removed before `update_country_holidays` runs; a `FileExistsError`
is caught and, like a `False` return, counted as a per-key error. Returns
the per-key success flag and the file content after the iteration. -/
def main_process_key (supported recreate force : Bool) (file : StoredFile)
    (fetch : Except Unit (List HolidayEntry)) : Bool × StoredFile :=
  let file1 := if recreate ∧ force ∧ file ≠ .absent then StoredFile.absent else file
  match update_country_holidays supported recreate file1 fetch with
  | (.ok b, f) => (b, f)
  | (.fileExistsError, f) => (false, f)

/-- Counterexample to C4 as stated: in recreate mode with the overwrite
directive, a fetch failure leaves the key's previously existing file deleted,
not as it was before the run. -/
theorem fetch_error_recreate_force_counterexample :
    (main_process_key true true true (.listJson [.entry ⟨"d", "n"⟩]) (.error ())).2 ≠
        .listJson [.entry ⟨"d", "n"⟩] ∧
      (main_process_key true true true (.listJson [.entry ⟨"d", "n"⟩]) (.error ())).2 =
        .absent := by
  decide

/-- C4 amended — when the fetch fails with `SourceFetchError`, nothing is
written for the key: the file is exactly as before the run in every mode
except recreate-with-overwrite, where `main` already removed any pre-existing
file before fetching, leaving the key with no file. -/
theorem fetch_error_preserves_file (supported recreate force : Bool)
    (file : StoredFile) :
    (main_process_key supported recreate force file (.error ())).2 =
      if recreate ∧ force ∧ file ≠ .absent then .absent else file := by
  rcases supported <;> rcases recreate <;> rcases force <;>
    by_cases hab : file = .absent <;>
      simp [main_process_key, update_country_holidays, hab]

/-- C7 — recreate without the overwrite directive on an existing file raises
`FileExistsError` before any fetch or write: the file is untouched, both at
the `update_country_holidays` call and across the `main` iteration. -/
theorem recreate_conflict_preserves_file (file : StoredFile)
    (fetch : Except Unit (List HolidayEntry)) (hex : file ≠ .absent) :
    update_country_holidays true true file fetch = (.fileExistsError, file) ∧
      main_process_key true true false file fetch = (false, file) := by
  constructor
  · simp [update_country_holidays, hex]
  · simp [main_process_key, update_country_holidays, hex]

/-- Witness for C7 at a concrete input. -/
theorem recreate_conflict_preserves_file_witness :
    update_country_holidays true true
        (.listJson [.entry ⟨"2025-01-01T00:00:00.000Z", "New Year"⟩])
        (.ok [⟨"2025-02-11T00:00:00.000Z", "Foundation Day"⟩]) =
      (.fileExistsError,
        .listJson [.entry ⟨"2025-01-01T00:00:00.000Z", "New Year"⟩]) :=
  (recreate_conflict_preserves_file _ _ (by decide)).1

/-- `create_holiday_key`: the `f"{date}:{name}"` string key the regression
validator uses to match entries across snapshots. -/
def create_holiday_key (h : HolidayEntry) : String := h.date ++ ":" ++ h.name

/-- One error message recorded by `compare_snapshots`, by kind. -/
inductive CompareError where
  | datasetMissing (country : String)
  | entryDeleted (country : String) (key : String)
  | entryModified (country : String)
deriving DecidableEq, Repr

/-- The aggregate counters of `compare_snapshots`: countries checked, entries
before and after, unchanged, new, modified and deleted counts. -/
structure CompareStats where
  countries_checked : Nat
  total_entries_before : Nat
  total_entries_after : Nat
  unchanged_entries : Nat
  new_entries : Nat
  modified_entries : Nat
  deleted_entries : Nat
deriving DecidableEq, Repr

def CompareStats.zero : CompareStats := ⟨0, 0, 0, 0, 0, 0, 0⟩

def CompareStats.add (a b : CompareStats) : CompareStats :=
  ⟨a.countries_checked + b.countries_checked,
    a.total_entries_before + b.total_entries_before,
    a.total_entries_after + b.total_entries_after,
    a.unchanged_entries + b.unchanged_entries,
    a.new_entries + b.new_entries,
    a.modified_entries + b.modified_entries,
    a.deleted_entries + b.deleted_entries⟩

/-- Distinct elements of a key list, modelling the contents of a Python set
built from it (only membership and cardinality of the sets are used by the
comparison, not iteration order). -/
def distinctKeys : List String → List String
  | [] => []
  | k :: t => if k ∈ t then distinctKeys t else k :: distinctKeys t

/-- `before_keys - after_keys`: the distinct keys present before and gone
after. -/
def deletedKeys (bh ah : List HolidayEntry) : List String :=
  (distinctKeys (bh.map create_holiday_key)).filter
    (fun k => decide (k ∉ ah.map create_holiday_key))

/-- `after_keys - before_keys`: the distinct keys newly present after. -/
def newKeys (bh ah : List HolidayEntry) : List String :=
  (distinctKeys (ah.map create_holiday_key)).filter
    (fun k => decide (k ∉ bh.map create_holiday_key))

/-- The per-before-entry scan of `compare_snapshots`: the first after entry
with the same string key, when there is one, is compared field-for-field.
Returns the unchanged count, the modified count and the modification
errors, in scan order. -/
def entryChecks (cc : String) (ah : List HolidayEntry) :
    List HolidayEntry → Nat × Nat × List CompareError
  | [] => (0, 0, [])
  | h :: t =>
      let rest := entryChecks cc ah t
      match ah.find? (fun h2 => decide (create_holiday_key h2 = create_holiday_key h)) with
      | none => rest
      | some h2 =>
          if h = h2 then (rest.1 + 1, rest.2.1, rest.2.2)
          else (rest.1, rest.2.1 + 1, CompareError.entryModified cc :: rest.2.2)

/-- Dict lookup `after[country_code]` (with `country_code not in after`
modelled as `none`). -/
def lookupKey (cc : String) : List (String × List HolidayEntry) →
    Option (List HolidayEntry)
  | [] => none
  | (c, es) :: t => if c = cc then some es else lookupKey cc t

/-- One iteration of the `compare_snapshots` country loop: the errors it
appends and the stats it adds for that country. -/
def checkCountry (after : List (String × List HolidayEntry)) (cc : String)
    (bh : List HolidayEntry) : List CompareError × CompareStats :=
  match lookupKey cc after with
  | none => ([CompareError.datasetMissing cc], ⟨1, bh.length, 0, 0, 0, 0, 0⟩)
  | some ah =>
      let del := deletedKeys bh ah
      let ec := entryChecks cc ah bh
      (del.map (fun k => CompareError.entryDeleted cc k) ++ ec.2.2,
        ⟨1, bh.length, ah.length, ec.1, (newKeys bh ah).length, ec.2.1, del.length⟩)

/-- The accumulation step of the country loop: errors are appended, stats
summed. -/
def compareStep (after : List (String × List HolidayEntry))
    (acc : List CompareError × CompareStats) (p : String × List HolidayEntry) :
    List CompareError × CompareStats :=
  (acc.1 ++ (checkCountry after p.1 p.2).1,
    CompareStats.add acc.2 (checkCountry after p.1 p.2).2)

/-- The result dict of `compare_snapshots`: `passed`, `errors`, `stats`. -/
structure CompareResult where
  passed : Bool
  errors : List CompareError
  stats : CompareStats
deriving DecidableEq, Repr

/-- `compare_snapshots(before, after)`: walk the countries present before,
collecting errors and stats; `passed` iff zero errors were recorded. -/
def compare_snapshots (before after : List (String × List HolidayEntry)) :
    CompareResult :=
  let res := before.foldl (compareStep after) ([], CompareStats.zero)
  ⟨res.1.length == 0, res.1, res.2⟩

/-- Recognizer for `ENTRY_DELETED` errors. -/
def isEntryDeleted : CompareError → Bool
  | .entryDeleted _ _ => true
  | _ => false

/-- Counterexample to C2 as stated: with entries whose `date:name` encodings
collide (a colon inside a field), an after snapshot that lacks exactly one
`(date, name)` pair present before — all other entries unchanged — yields
ZERO deleted-entry errors (the deletion is masked as a modification). -/
theorem compare_deleted_counterexample :
    ([(⟨"a:b", "c"⟩ : HolidayEntry)] =
        [(⟨"a:b", "c"⟩ : HolidayEntry), ⟨"a", "b:c"⟩].filter
          (fun h => decide (¬ (h.date = "a" ∧ h.name = "b:c")))) ∧
      ((⟨"a", "b:c"⟩ : HolidayEntry) ∈
        [(⟨"a:b", "c"⟩ : HolidayEntry), ⟨"a", "b:c"⟩]) ∧
      ((compare_snapshots [("JP", [⟨"a:b", "c"⟩, ⟨"a", "b:c"⟩])]
          [("JP", [⟨"a:b", "c"⟩])]).errors.countP isEntryDeleted = 0) ∧
      (compare_snapshots [("JP", [⟨"a:b", "c"⟩, ⟨"a", "b:c"⟩])]
          [("JP", [⟨"a:b", "c"⟩])]).passed = false := by
  decide

lemma entry_eq_of_fields {a b : HolidayEntry} (hd : a.date = b.date)
    (hn : a.name = b.name) : a = b := by
  rw [show a = ⟨a.date, a.name⟩ from rfl, show b = ⟨b.date, b.name⟩ from rfl, hd, hn]

lemma distinctKeys_cons (k : String) (t : List String) :
    distinctKeys (k :: t) =
      if k ∈ t then distinctKeys t else k :: distinctKeys t := rfl

lemma mem_distinctKeys : ∀ (l : List String) (x : String),
    x ∈ distinctKeys l ↔ x ∈ l := by
  intro l
  induction l with
  | nil => intro x; simp [distinctKeys]
  | cons k t ih =>
      intro x
      by_cases hk : k ∈ t
      · rw [distinctKeys_cons, if_pos hk, ih x, List.mem_cons]
        constructor
        · exact Or.inr
        · rintro (rfl | hx)
          · exact hk
          · exact hx
      · rw [distinctKeys_cons, if_neg hk, List.mem_cons, ih x, List.mem_cons]

lemma nodup_distinctKeys : ∀ l : List String, (distinctKeys l).Nodup := by
  intro l
  induction l with
  | nil => exact List.nodup_nil
  | cons k t ih =>
      by_cases hk : k ∈ t
      · rw [distinctKeys_cons, if_pos hk]; exact ih
      · rw [distinctKeys_cons, if_neg hk]
        exact List.nodup_cons.mpr ⟨fun hx => hk ((mem_distinctKeys t k).mp hx), ih⟩

lemma lookupKey_mem : ∀ {l : List (String × List HolidayEntry)}
    {c : String} {es : List HolidayEntry}, (l.map Prod.fst).Nodup →
    (c, es) ∈ l → lookupKey c l = some es := by
  intro l
  induction l with
  | nil => intro c es _ hm; cases hm
  | cons p t ih =>
      intro c es hnd hm
      rcases p with ⟨c', es'⟩
      rcases List.mem_cons.mp hm with heq | htail
      · injection heq with hc he
        rw [lookupKey, if_pos hc.symm, he]
      · have hc' : c' ≠ c := by
          intro hcc
          have h1 : c' ∉ t.map Prod.fst := by
            rw [List.map_cons] at hnd
            exact (List.nodup_cons.mp hnd).1
          exact h1 (hcc ▸ List.mem_map.mpr ⟨(c, es), htail, rfl⟩)
        rw [lookupKey, if_neg hc']
        exact ih (by rw [List.map_cons] at hnd; exact (List.nodup_cons.mp hnd).2) htail

lemma lookupKey_map (cc : String) (p : HolidayEntry → Bool) :
    ∀ (l : List (String × List HolidayEntry)) (c : String),
      lookupKey c (l.map (fun q => if q.1 = cc then (q.1, q.2.filter p) else q)) =
        (lookupKey c l).map (fun es => if c = cc then es.filter p else es) := by
  intro l
  induction l with
  | nil => intro c; simp [lookupKey]
  | cons q t ih =>
      intro c
      rcases q with ⟨c', es'⟩
      rw [List.map_cons]
      by_cases hcc : c' = cc
      · have hhead : (if (c', es').1 = cc then ((c', es').1, (c', es').2.filter p)
            else (c', es')) = (c', es'.filter p) := by
          simp [hcc]
        rw [hhead]
        by_cases hq : c' = c
        · subst hq
          rw [lookupKey, if_pos rfl, lookupKey, if_pos rfl]
          simp [hcc]
        · rw [lookupKey, if_neg hq, lookupKey, if_neg hq, ih c]
      · have hhead : (if (c', es').1 = cc then ((c', es').1, (c', es').2.filter p)
            else (c', es')) = (c', es') := by
          simp [hcc]
        rw [hhead]
        by_cases hq : c' = c
        · subst hq
          rw [lookupKey, if_pos rfl, lookupKey, if_pos rfl]
          simp [hcc]
        · rw [lookupKey, if_neg hq, lookupKey, if_neg hq, ih c]

lemma entryChecks_cons (cc : String) (ah : List HolidayEntry)
    (h : HolidayEntry) (t : List HolidayEntry) :
    entryChecks cc ah (h :: t) =
      let rest := entryChecks cc ah t
      match ah.find?
          (fun h2 => decide (create_holiday_key h2 = create_holiday_key h)) with
      | none => rest
      | some h2 =>
          if h = h2 then (rest.1 + 1, rest.2.1, rest.2.2)
          else (rest.1, rest.2.1 + 1, CompareError.entryModified cc :: rest.2.2) := rfl

lemma entryChecks_deleted_count (cc : String) (ah : List HolidayEntry) :
    ∀ l, ((entryChecks cc ah l).2.2).countP isEntryDeleted = 0 := by
  intro l
  induction l with
  | nil => rfl
  | cons h t ih =>
      rw [entryChecks_cons]
      rcases hf : ah.find?
          (fun h2 => decide (create_holiday_key h2 = create_holiday_key h)) with _ | h2
      · simpa using ih
      · by_cases he : h = h2
        · simp only [he, if_pos]
          simpa using ih
        · simp only [he, if_neg]
          simpa [List.countP_cons, isEntryDeleted] using ih

lemma entryChecks_errors_nil (cc : String) (ah : List HolidayEntry) :
    ∀ l, (∀ h ∈ l, ah.find?
        (fun h2 => decide (create_holiday_key h2 = create_holiday_key h)) = some h) →
      (entryChecks cc ah l).2.2 = [] := by
  intro l
  induction l with
  | nil => intro _; rfl
  | cons h t ih =>
      intro hall
      rw [entryChecks_cons, hall h (List.mem_cons_self h t)]
      simp only [if_pos rfl]
      exact ih fun h' h't => hall h' (List.mem_cons_of_mem _ h't)

lemma find?_key_self {es : List HolidayEntry}
    (hinj : ∀ h1 ∈ es, ∀ h2 ∈ es,
      create_holiday_key h1 = create_holiday_key h2 → h1 = h2)
    {h : HolidayEntry} (hm : h ∈ es) :
    es.find? (fun h2 => decide (create_holiday_key h2 = create_holiday_key h)) =
      some h := by
  rcases hf : es.find?
      (fun h2 => decide (create_holiday_key h2 = create_holiday_key h)) with _ | h2
  · exfalso
    have := List.find?_eq_none.mp hf h hm
    simp at this
  · have hp := List.find?_some hf
    have hmem2 := List.mem_of_find?_eq_some hf
    simp only [decide_eq_true_eq] at hp
    rw [hinj h2 hmem2 h hm hp]

lemma checkCountry_some {after : List (String × List HolidayEntry)}
    {cc : String} {bh ah : List HolidayEntry}
    (hlook : lookupKey cc after = some ah) :
    checkCountry after cc bh =
      ((deletedKeys bh ah).map (fun k => CompareError.entryDeleted cc k) ++
          (entryChecks cc ah bh).2.2,
        ⟨1, bh.length, ah.length, (entryChecks cc ah bh).1,
          (newKeys bh ah).length, (entryChecks cc ah bh).2.1,
          (deletedKeys bh ah).length⟩) := by
  unfold checkCountry
  rw [hlook]

lemma checkCountry_self (after : List (String × List HolidayEntry))
    (cc' : String) (es : List HolidayEntry)
    (hlook : lookupKey cc' after = some es)
    (hinj : ∀ h1 ∈ es, ∀ h2 ∈ es,
      create_holiday_key h1 = create_holiday_key h2 → h1 = h2) :
    (checkCountry after cc' es).1 = [] := by
  rw [checkCountry_some hlook]
  have hdel : deletedKeys es es = [] := by
    rw [deletedKeys, List.filter_eq_nil_iff]
    intro k hk
    simp only [decide_eq_true_eq, not_not]
    exact List.mem_map.mp ((mem_distinctKeys _ k).mp hk) |>.elim
      fun h ⟨hh, hkk⟩ => hkk ▸ List.mem_map.mpr ⟨h, hh, rfl⟩
  have hmod : (entryChecks cc' es es).2.2 = [] :=
    entryChecks_errors_nil cc' es es fun h hm => find?_key_self hinj hm
  simp [hdel, hmod]

lemma checkCountry_cc (after : List (String × List HolidayEntry))
    (cc : String) (bh : List HolidayEntry) (hT : HolidayEntry)
    (hTmem : hT ∈ bh)
    (hinj : ∀ h1 ∈ bh, ∀ h2 ∈ bh,
      create_holiday_key h1 = create_holiday_key h2 → h1 = h2)
    (hlook : lookupKey cc after =
      some (bh.filter (fun h => decide (¬ (h.date = hT.date ∧ h.name = hT.name))))) :
    (checkCountry after cc bh).1.countP isEntryDeleted = 1 ∧
      (checkCountry after cc bh).1 ≠ [] := by
  set ah := bh.filter (fun h => decide (¬ (h.date = hT.date ∧ h.name = hT.name)))
    with hah
  have hknotin : create_holiday_key hT ∉ ah.map create_holiday_key := by
    intro hk
    rcases List.mem_map.mp hk with ⟨h', hh', hkeq⟩
    rw [hah, List.mem_filter] at hh'
    have hbad : h' = hT := hinj h' hh'.1 hT hTmem hkeq
    have := hh'.2
    rw [hbad] at this
    simp at this
  have hdel : deletedKeys bh ah = [create_holiday_key hT] := by
    have hmem1 : create_holiday_key hT ∈ deletedKeys bh ah := by
      rw [deletedKeys, List.mem_filter]
      refine ⟨(mem_distinctKeys _ _).mpr (List.mem_map.mpr ⟨hT, hTmem, rfl⟩), ?_⟩
      simp only [decide_eq_true_eq]
      exact hknotin
    have hall : ∀ k ∈ deletedKeys bh ah, k = create_holiday_key hT := by
      intro k hk
      rw [deletedKeys, List.mem_filter] at hk
      rcases hk with ⟨hk1, hk2⟩
      rcases List.mem_map.mp ((mem_distinctKeys _ _).mp hk1) with ⟨h, hhbh, rfl⟩
      simp only [decide_eq_true_eq] at hk2
      by_cases hpair : h.date = hT.date ∧ h.name = hT.name
      · rw [entry_eq_of_fields hpair.1 hpair.2]
      · exfalso
        apply hk2
        refine List.mem_map.mpr ⟨h, ?_, rfl⟩
        rw [hah, List.mem_filter]
        exact ⟨hhbh, by simp only [decide_eq_true_eq]; exact hpair⟩
    have hnd : (deletedKeys bh ah).Nodup := List.Nodup.filter _ (nodup_distinctKeys _)
    rcases hd : deletedKeys bh ah with _ | ⟨k0, rest⟩
    · rw [hd] at hmem1; cases hmem1
    · rw [hd] at hall hnd
      have hk0 : k0 = create_holiday_key hT := hall k0 (List.mem_cons_self _ _)
      rcases hr : rest with _ | ⟨r1, rest'⟩
      · rw [hk0]
      · exfalso
        rw [hr] at hall hnd
        have hr1 : r1 = create_holiday_key hT :=
          hall r1 (List.mem_cons_of_mem _ (List.mem_cons_self _ _))
        have hnotin : k0 ∉ r1 :: rest' := (List.nodup_cons.mp hnd).1
        apply hnotin
        rw [hk0, ← hr1]
        exact List.mem_cons_self _ _
  rw [checkCountry_some hlook]
  constructor
  · simp only [List.countP_append, ← hah, hdel, entryChecks_deleted_count]
    simp [isEntryDeleted, List.countP_cons]
  · simp only [← hah, hdel]
    simp

lemma compare_foldl_errors (a : List (String × List HolidayEntry)) :
    ∀ (l : List (String × List HolidayEntry))
      (acc : List CompareError × CompareStats),
      (l.foldl (compareStep a) acc).1 =
        acc.1 ++ (l.map (fun p => (checkCountry a p.1 p.2).1)).flatten := by
  intro l
  induction l with
  | nil => intro acc; simp
  | cons p t ih =>
      intro acc
      rw [List.foldl_cons, ih, List.map_cons, List.flatten_cons]
      simp [compareStep, List.append_assoc]

lemma flatten_nil_of_all_nil {α β : Type} (f : α → List β) :
    ∀ l : List α, (∀ p ∈ l, f p = []) → (l.map f).flatten = [] := by
  intro l
  induction l with
  | nil => intro _; rfl
  | cons p t ih =>
      intro hall
      rw [List.map_cons, List.flatten_cons, hall p (List.mem_cons_self _ _),
        List.nil_append]
      exact ih fun q hq => hall q (List.mem_cons_of_mem _ hq)

/-- C2 amended — `passed` holds iff no errors were recorded (unconditionally);
and, provided the `date:name` string encoding is injective on each dataset's
entries, an after snapshot in which one country's state lacks exactly one
`(date, name)` pair present before — all other entries and countries
unchanged — records exactly one deleted-entry error and the overall result is
`FAILED`. Without the injectivity proviso a colliding key can mask the
deletion (see the counterexample). -/
theorem compare_passed_iff_errors (before after : List (String × List HolidayEntry))
    (cc : String) (bh : List HolidayEntry) (hT : HolidayEntry)
    (hkeys : (before.map Prod.fst).Nodup)
    (hmem : (cc, bh) ∈ before)
    (hTmem : hT ∈ bh)
    (hinj : ∀ p ∈ before, ∀ h1 ∈ p.2, ∀ h2 ∈ p.2,
      create_holiday_key h1 = create_holiday_key h2 → h1 = h2)
    (hafter : after = before.map (fun q =>
      if q.1 = cc then
        (q.1, q.2.filter (fun h => decide (¬ (h.date = hT.date ∧ h.name = hT.name))))
      else q)) :
    (∀ b a : List (String × List HolidayEntry),
        (compare_snapshots b a).passed = true ↔ (compare_snapshots b a).errors = []) ∧
      (compare_snapshots before after).errors.countP isEntryDeleted = 1 ∧
      (compare_snapshots before after).passed = false := by
  have hpassed : ∀ b a : List (String × List HolidayEntry),
      (compare_snapshots b a).passed = true ↔ (compare_snapshots b a).errors = [] := by
    intro b a
    show ((b.foldl (compareStep a) ([], CompareStats.zero)).1.length == 0) = true ↔
      (b.foldl (compareStep a) ([], CompareStats.zero)).1 = []
    rw [beq_iff_eq, List.length_eq_zero]
  refine ⟨hpassed, ?_⟩
  obtain ⟨s, t, hsplit⟩ := List.append_of_mem hmem
  -- distinctness facts around the split
  have hccs : cc ∉ s.map Prod.fst ∧ cc ∉ t.map Prod.fst := by
    rw [hsplit, List.map_append, List.map_cons] at hkeys
    rcases List.nodup_append.mp hkeys with ⟨_, hnd2, hdisj⟩
    constructor
    · intro hcs
      exact hdisj hcs (List.mem_cons_self _ _)
    · exact (List.nodup_cons.mp hnd2).1
  -- untouched countries contribute no errors
  have hzero : ∀ p ∈ before, p.1 ≠ cc → (checkCountry after p.1 p.2).1 = [] := by
    intro p hp hpcc
    have hlookb : lookupKey p.1 before = some p.2 := lookupKey_mem hkeys hp
    have hlooka : lookupKey p.1 after = some p.2 := by
      rw [hafter, lookupKey_map, hlookb, Option.map]
      rw [if_neg hpcc]
    exact checkCountry_self after p.1 p.2 hlooka (hinj p hp)
  -- the touched country records exactly one deleted-entry error
  have hlookcc : lookupKey cc after =
      some (bh.filter (fun h => decide (¬ (h.date = hT.date ∧ h.name = hT.name)))) := by
    rw [hafter, lookupKey_map, lookupKey_mem hkeys hmem, Option.map]
    rw [if_pos rfl]
  have hcc := checkCountry_cc after cc bh hT hTmem
    (hinj (cc, bh) hmem) hlookcc
  -- assemble the error list
  have herr : (compare_snapshots before after).errors = (checkCountry after cc bh).1 := by
    show (before.foldl (compareStep after) ([], CompareStats.zero)).1 = _
    rw [compare_foldl_errors, List.nil_append, hsplit, List.map_append,
      List.map_cons, List.flatten_append, List.flatten_cons]
    have hs : ((s.map fun p => (checkCountry after p.1 p.2).1)).flatten = [] := by
      refine flatten_nil_of_all_nil _ s fun p hp => ?_
      refine hzero p (hsplit ▸ List.mem_append_left _ hp) fun hpcc => ?_
      exact hccs.1 (hpcc ▸ List.mem_map.mpr ⟨p, hp, rfl⟩)
    have ht : ((t.map fun p => (checkCountry after p.1 p.2).1)).flatten = [] := by
      refine flatten_nil_of_all_nil _ t fun p hp => ?_
      refine hzero p (hsplit ▸ List.mem_append_right _ (List.mem_cons_of_mem _ hp))
        fun hpcc => ?_
      exact hccs.2 (hpcc ▸ List.mem_map.mpr ⟨p, hp, rfl⟩)
    rw [hs, ht, List.nil_append, List.append_nil]
  constructor
  · rw [herr]
    exact hcc.1
  · have hne : (compare_snapshots before after).errors ≠ [] := by
      rw [herr]; exact hcc.2
    rcases hb : (compare_snapshots before after).passed with _ | _
    · rfl
    · exact absurd ((hpassed before after).mp hb) hne

/-- Witness for C2's amended theorem at a concrete snapshot pair. -/
theorem compare_passed_iff_errors_witness :
    (compare_snapshots
        [("JP", [(⟨"2025-01-01T00:00:00.000Z", "New Year"⟩ : HolidayEntry),
          ⟨"2025-02-11T00:00:00.000Z", "Foundation Day"⟩])]
        ([("JP", [(⟨"2025-01-01T00:00:00.000Z", "New Year"⟩ : HolidayEntry),
          ⟨"2025-02-11T00:00:00.000Z", "Foundation Day"⟩])].map (fun q =>
          if q.1 = "JP" then
            (q.1, q.2.filter (fun h => decide (¬ (h.date = "2025-02-11T00:00:00.000Z" ∧
              h.name = "Foundation Day"))))
          else q))).errors.countP isEntryDeleted = 1 ∧
      (compare_snapshots
        [("JP", [(⟨"2025-01-01T00:00:00.000Z", "New Year"⟩ : HolidayEntry),
          ⟨"2025-02-11T00:00:00.000Z", "Foundation Day"⟩])]
        ([("JP", [(⟨"2025-01-01T00:00:00.000Z", "New Year"⟩ : HolidayEntry),
          ⟨"2025-02-11T00:00:00.000Z", "Foundation Day"⟩])].map (fun q =>
          if q.1 = "JP" then
            (q.1, q.2.filter (fun h => decide (¬ (h.date = "2025-02-11T00:00:00.000Z" ∧
              h.name = "Foundation Day"))))
          else q))).passed = false :=
  (compare_passed_iff_errors _ _ "JP"
    [⟨"2025-01-01T00:00:00.000Z", "New Year"⟩,
      ⟨"2025-02-11T00:00:00.000Z", "Foundation Day"⟩]
    ⟨"2025-02-11T00:00:00.000Z", "Foundation Day"⟩
    (by decide) (by decide) (by decide) (by decide) rfl).2

end Holiday
